import Mathlib

/-!
Shallow embedding of the Merkleized list index
(src/src/proof_list_index/mod.rs) and proofs about it.

The storage backend is modelled as explicit maps inside a `ProofList`
state record; Rust panics (including failed `unwrap`) are modelled by
`Option`, with `none` standing for a panic.  The tree-key geometry
(`key.rs`) and the domain-separated hashing (`hash.rs`) are not part of
the provided sources, so they are modelled from the specification; every
such definition is marked in its doc comment.
-/

set_option autoImplicit false

namespace ProofListIndex

/-- Modelled from the spec: 256-bit digests with domain-separated
constructors (`HashTag`, from section 6 of the spec; `hash.rs` is not in
the sources).  A free term algebra is the standard idealisation of a
collision-free hash: distinct constructor applications are distinct
digests.  `default` is `H::default()`. -/
inductive Hash (V : Type) where
  | default : Hash V
  | leaf : V → Hash V
  | single : Hash V → Hash V
  | node : Hash V → Hash V → Hash V
  | listNode : Nat → Hash V → Hash V
deriving DecidableEq

/-- Modelled from the spec: `HashTag::hash_leaf`. -/
def hash_leaf {V : Type} (v : V) : Hash V := Hash.leaf v

/-- Modelled from the spec: `HashTag::hash_single_node`. -/
def hash_single_node {V : Type} (h : Hash V) : Hash V := Hash.single h

/-- Modelled from the spec: `HashTag::hash_node`. -/
def hash_node {V : Type} (l r : Hash V) : Hash V := Hash.node l r

/-- Modelled from the spec: `HashTag::hash_list_node(len, root) =
H(tag_list with big_endian_u64(len) and root)`. -/
def hash_list_node {V : Type} (len : Nat) (root : Hash V) : Hash V :=
  Hash.listNode len root

/-- Modelled from the spec: `HashTag::empty_list_hash`, the list hash of
`len = 0` with root `H::default()`. -/
def empty_list_hash {V : Type} : Hash V := hash_list_node 0 Hash.default

/-- Modelled from the spec (section 4.3; `key.rs` is not in the
sources): a node coordinate `(height, index)`. -/
structure ProofListKey where
  height : Nat
  index : Nat
deriving DecidableEq

namespace ProofListKey

/-- Modelled from the spec: `new(h, i) = (h, i)`. -/
def new (h i : Nat) : ProofListKey := ⟨h, i⟩

/-- Modelled from the spec: `leaf(i) = (0, i)`. -/
def leaf (i : Nat) : ProofListKey := ⟨0, i⟩

/-- Modelled from the spec: `left(k) = (h - 1, 2 i)`. -/
def left (k : ProofListKey) : ProofListKey := ⟨k.height - 1, 2 * k.index⟩

/-- Modelled from the spec: `right(k) = (h - 1, 2 i + 1)`. -/
def right (k : ProofListKey) : ProofListKey := ⟨k.height - 1, 2 * k.index + 1⟩

/-- Modelled from the spec: `parent(k) = (h + 1, i / 2)`. -/
def parent (k : ProofListKey) : ProofListKey := ⟨k.height + 1, k.index / 2⟩

/-- Modelled from the spec: `is_left(k)` holds iff the index is even. -/
def is_left (k : ProofListKey) : Bool := k.index % 2 == 0

/-- Modelled from the spec: `as_left` clears the low bit of the index. -/
def as_left (k : ProofListKey) : ProofListKey :=
  ⟨k.height, k.index - k.index % 2⟩

/-- Modelled from the spec: `as_right` sets the low bit of the index. -/
def as_right (k : ProofListKey) : ProofListKey :=
  ⟨k.height, k.index - k.index % 2 + 1⟩

/-- Modelled from the spec: `first_left_leaf_index(k) = i * 2 ^ (h - 1)`. -/
def first_left_leaf_index (k : ProofListKey) : Nat :=
  k.index * 2 ^ (k.height - 1)

/-- Modelled from the spec: `first_right_leaf_index(k) =
i * 2 ^ (h - 1) + 2 ^ (h - 2)` (used only at heights at least 2). -/
def first_right_leaf_index (k : ProofListKey) : Nat :=
  k.index * 2 ^ (k.height - 1) + 2 ^ (k.height - 2)

end ProofListKey

/-- Rust `u64::trailing_zeros`, fuel-driven so that it is structurally
recursive; `trailing_zeros 0 = 64` exactly as for `0_u64`, and for
positive `n` the fuel `n` always suffices since the 2-adic valuation of
`n` is below `n`. -/
def tz_go : Nat → Nat → Nat
  | 0, _ => 0
  | fuel + 1, m => if m % 2 = 1 then 0 else tz_go fuel (m / 2) + 1

/-- Rust `u64::trailing_zeros` (see `tz_go`). -/
def trailing_zeros (n : Nat) : Nat :=
  if n = 0 then 64 else tz_go n n

/-- Rust `u64::next_power_of_two`: the least power of two that is at
least `max n 1`, computed by doubling an accumulator; the fuel `n`
always suffices because `n < 2 ^ n`. -/
def npot_go (n : Nat) : Nat → Nat → Nat
  | 0, acc => acc
  | fuel + 1, acc => if n ≤ acc then acc else npot_go n fuel (2 * acc)

/-- Rust `u64::next_power_of_two` (see `npot_go`). -/
def next_power_of_two (n : Nat) : Nat := npot_go n n 1

/-- Source `ProofListIndex::height` as a function of the length:
`len.next_power_of_two().trailing_zeros() + 1` (mod.rs line 303). -/
def heightOf (n : Nat) : Nat := trailing_zeros (next_power_of_two n) + 1

/-- The state of one `ProofListIndex`: the scoped key-value store split
by key shape (leaf keys `(0, i)` hold values, node keys `(h ≥ 1, i)`
hold hashes, the distinguished empty key holds the length), plus the
in-memory cached length (`length : Cell<Option<u64>>`). -/
structure ProofList (V : Type) where
  leaves : Nat → Option V
  nodes : ProofListKey → Option (Hash V)
  stored_len : Option Nat
  cache : Option Nat

/-- A freshly created index (`ProofListIndex::new`): nothing stored
under its scope and an unpopulated length cache. -/
def empty0 {V : Type} : ProofList V :=
  { leaves := fun _ => none
    nodes := fun _ => none
    stored_len := none
    cache := none }

variable {V : Type}

/-- The value `self.len()` returns: the cached length, defaulting to the
stored length (itself defaulting to 0), mod.rs lines 274-281. -/
def lenVal (s : ProofList V) : Nat := s.cache.getD (s.stored_len.getD 0)

/-- Source `self.len()` with its side effect: populates the cache from storage
on first access (mod.rs lines 274-281). -/
def lenRead (s : ProofList V) : Nat × ProofList V :=
  match s.cache with
  | some l => (l, s)
  | none => (s.stored_len.getD 0, { s with cache := some (s.stored_len.getD 0) })

/-- Source `set_len` (mod.rs lines 470-473): persists the length and updates
the cache. -/
def set_len (s : ProofList V) (l : Nat) : ProofList V :=
  { s with stored_len := some l, cache := some l }

/-- Source `set_branch` (mod.rs lines 475-479): `self.base.put(&key, hash)` on
a node key. -/
def set_branch (s : ProofList V) (k : ProofListKey) (h : Hash V) : ProofList V :=
  { s with nodes := fun k2 => if k2 = k then some h else s.nodes k2 }

/-- Source `self.base.put(&ProofListKey::leaf(i), v)`. -/
def put_leaf (s : ProofList V) (i : Nat) (v : V) : ProofList V :=
  { s with leaves := fun j => if j = i then some v else s.leaves j }

/-- Source `has_branch` (mod.rs lines 143-147). -/
def has_branch (s : ProofList V) (k : ProofListKey) : Bool :=
  decide (k.first_left_leaf_index < lenVal s)

/-- Source `get_branch` (mod.rs lines 149-155). -/
def get_branch (s : ProofList V) (k : ProofListKey) : Option (Hash V) :=
  if has_branch s k then s.nodes k else none

/-- Source `get_branch_unchecked` (mod.rs lines 157-161): a plain `unwrap`;
`none` models the panic on a missing node. -/
def get_branch_unchecked (s : ProofList V) (k : ProofListKey) : Option (Hash V) :=
  s.nodes k

/-- Source `height` (mod.rs lines 302-304). -/
def height (s : ProofList V) : Nat := heightOf (lenVal s)

/-- Source `root_key` (mod.rs lines 163-165). -/
def root_key (s : ProofList V) : ProofListKey := ProofListKey.new (height s) 0

/-- Source `merkle_root` (mod.rs lines 190-192). -/
def merkle_root (s : ProofList V) : Hash V :=
  (get_branch s (root_key s)).getD Hash.default

/-- Source `list_hash` (mod.rs lines 336-338). -/
def list_hash (s : ProofList V) : Hash V :=
  hash_list_node (lenVal s) (merkle_root s)

/-- Source `get` (mod.rs lines 211-213): reads the leaf key `(0, index)`. -/
def get (s : ProofList V) (i : Nat) : Option V := s.leaves i

/-- Source `last` (mod.rs lines 231-236). -/
def last (s : ProofList V) : Option V :=
  match lenVal s with
  | 0 => none
  | l => get s (l - 1)

/-- Source `ListProof` (from `proof.rs`, shape as documented in the spec
section 4.5); `Absent` carries `ProofOfAbsence { len, merkle_root }`. -/
inductive ListProof (V : Type) where
  | Leaf : V → ListProof V
  | Left : ListProof V → Option (Hash V) → ListProof V
  | Right : Hash V → ListProof V → ListProof V
  | Full : ListProof V → ListProof V → ListProof V
  | Absent : Nat → Hash V → ListProof V
deriving DecidableEq

/-- Source `construct_proof` (mod.rs lines 167-188), presented as recursion on
the key height (each recursive call descends exactly one level, so this
is the same recursion); the height-0 case is unreachable from the public
entry points and is modelled as a panic. -/
def construct_proof_h (s : ProofList V) : Nat → Nat → Nat → Nat → Option (ListProof V)
  | 0, _, _, _ => none
  | 1, idx, _, _ => (get s idx).map ListProof.Leaf
  | h + 2, idx, a, b =>
    let key : ProofListKey := ⟨h + 2, idx⟩
    let middle := key.first_right_leaf_index
    if b ≤ middle then
      (construct_proof_h s (h + 1) (2 * idx) a b).map
        (fun sub => ListProof.Left sub (get_branch s key.right))
    else if middle ≤ a then
      (get_branch_unchecked s key.left).bind fun lh =>
        (construct_proof_h s (h + 1) (2 * idx + 1) a b).map
          (fun sub => ListProof.Right lh sub)
    else
      (construct_proof_h s (h + 1) (2 * idx) a middle).bind fun pl =>
        (construct_proof_h s (h + 1) (2 * idx + 1) middle b).map
          (fun pr => ListProof.Full pl pr)

/-- Source `construct_proof(key, from, to)` (mod.rs lines 167-188). -/
def construct_proof (s : ProofList V) (key : ProofListKey) (a b : Nat) :
    Option (ListProof V) :=
  construct_proof_h s key.height key.index a b

/-- Source `get_proof` (mod.rs lines 360-366).  The cache population performed
by `self.len()` does not change any returned value, so the read is
modelled as a pure function of the state. -/
def get_proof (s : ProofList V) (i : Nat) : Option (ListProof V) :=
  if lenVal s ≤ i then
    some (ListProof.Absent (lenVal s) (merkle_root s))
  else
    construct_proof s (root_key s) i (i + 1)

/-- Rust `std::ops::Bound<u64>` for `RangeBounds` resolution. -/
inductive Bound where
  | unbounded : Bound
  | included : Nat → Bound
  | excluded : Nat → Bound
deriving DecidableEq

/-- The start-bound match of `get_range_proof` (mod.rs lines 396-399):
`Unbounded => 0`, `Included(x) | Excluded(x) => x`. -/
def resolve_start (b : Bound) : Nat :=
  match b with
  | Bound.unbounded => 0
  | Bound.included x => x
  | Bound.excluded x => x

/-- The end-bound match of `get_range_proof` (mod.rs lines 401-404):
`Unbounded => self.len()` (which may populate the cache),
`Included(x) | Excluded(x) => x`. -/
def resolve_end (s : ProofList V) (b : Bound) : Nat × ProofList V :=
  match b with
  | Bound.unbounded => lenRead s
  | Bound.included x => (x, s)
  | Bound.excluded x => (x, s)

/-- The observable outcome of `get_range_proof`: the `IllegalRange`
panic (mod.rs lines 406-411), a panic from a failed `unwrap` inside
`construct_proof` (impossible on well-formed lists), or a proof. -/
inductive RangeOutcome (V : Type) where
  | illegal_range : Nat → Nat → RangeOutcome V
  | storage_panic : RangeOutcome V
  | proof : ListProof V → RangeOutcome V
deriving DecidableEq

/-- Source `get_range_proof` (mod.rs lines 395-418), returning the outcome and
the resulting handle state (only the length cache can change, since the
method takes a shared reference). -/
def get_range_proof (s : ProofList V) (a b : Bound) : RangeOutcome V × ProofList V :=
  let lo := resolve_start a
  let p := resolve_end s b
  if p.1 ≤ lo then (RangeOutcome.illegal_range lo p.1, p.2)
  else
    let q := lenRead p.2
    if q.1 < p.1 then
      (RangeOutcome.proof (ListProof.Absent (lenVal q.2) (merkle_root q.2)), q.2)
    else
      match construct_proof q.2 (root_key q.2) lo p.1 with
      | some pr => (RangeOutcome.proof pr, q.2)
      | none => (RangeOutcome.storage_panic, q.2)

/-- The `while` loop of `push` (mod.rs lines 503-514).  The loop
condition `key.height() < self.height()` is re-checked every iteration;
the `Nat` fuel only bounds the number of iterations and the caller
passes `self.height()`, which always suffices because the key height
strictly increases towards it.  Exhausted fuel inside a live loop is
modelled as `none` (it never occurs). -/
def push_loop : ProofList V → ProofListKey → Nat → Option (ProofList V)
  | s, key, 0 => if key.height < height s then none else some s
  | s, key, fuel + 1 =>
    if key.height < height s then
      match
        (if key.is_left then
          (get_branch_unchecked s key).map hash_single_node
        else
          (get_branch_unchecked s key.as_left).bind fun lh =>
            (get_branch_unchecked s key).map fun rh => hash_node lh rh) with
      | none => none
      | some hsh =>
        let key2 := key.parent
        push_loop (set_branch s key2 hsh) key2 fuel
    else some s

/-- Source `push` (mod.rs lines 496-515): reads the length, persists
`len + 1` first, writes the height-1 hash and the leaf, then walks
upward. -/
def push (s : ProofList V) (v : V) : Option (ProofList V) :=
  let p := lenRead s
  let s1 := set_len p.2 (p.1 + 1)
  let key : ProofListKey := ProofListKey.new 1 p.1
  let s2 := set_branch s1 key (hash_leaf v)
  let s3 := put_leaf s2 p.1 v
  push_loop s3 key (height s3)

/-- Sequential `push` of a list of values (`extend`, mod.rs lines
532-539). -/
def push_all (s : ProofList V) : List V → Option (ProofList V)
  | [] => some s
  | v :: vs => (push s v).bind (fun t => push_all t vs)

/-- The `while` loop of `set` (mod.rs lines 574-586); fuel conventions
as in `push_loop`. -/
def set_loop : ProofList V → ProofListKey → Nat → Option (ProofList V)
  | s, key, 0 => if key.height < height s then none else some s
  | s, key, fuel + 1 =>
    if key.height < height s then
      match
        (if has_branch s key.as_right then
          (get_branch_unchecked s key.as_left).bind fun lh =>
            (get_branch_unchecked s key.as_right).map fun rh => hash_node lh rh
        else
          (get_branch_unchecked s key.as_left).map hash_single_node) with
      | none => none
      | some hsh =>
        let key2 := key.parent
        set_loop (set_branch s key2 hsh) key2 fuel
    else some s

/-- Source `set` (mod.rs lines 563-587): panics (`none`) when
`index >= self.len()`, otherwise overwrites the leaf and its height-1
hash and recomputes the authentication path. -/
def set (s : ProofList V) (i : Nat) (v : V) : Option (ProofList V) :=
  let p := lenRead s
  if p.1 ≤ i then none
  else
    let key : ProofListKey := ProofListKey.new 1 i
    let s1 := set_branch p.2 key (hash_leaf v)
    let s2 := put_leaf s1 i v
    set_loop s2 key (height s2)

/-! ### Basic state lemmas -/

@[simp] lemma leaves_set_branch (s : ProofList V) (k : ProofListKey) (h : Hash V) :
    (set_branch s k h).leaves = s.leaves := rfl

@[simp] lemma stored_len_set_branch (s : ProofList V) (k : ProofListKey) (h : Hash V) :
    (set_branch s k h).stored_len = s.stored_len := rfl

@[simp] lemma cache_set_branch (s : ProofList V) (k : ProofListKey) (h : Hash V) :
    (set_branch s k h).cache = s.cache := rfl

@[simp] lemma lenVal_set_branch (s : ProofList V) (k : ProofListKey) (h : Hash V) :
    lenVal (set_branch s k h) = lenVal s := rfl

@[simp] lemma height_set_branch (s : ProofList V) (k : ProofListKey) (h : Hash V) :
    height (set_branch s k h) = height s := rfl

lemma nodes_set_branch (s : ProofList V) (k k2 : ProofListKey) (h : Hash V) :
    (set_branch s k h).nodes k2 = if k2 = k then some h else s.nodes k2 := rfl

@[simp] lemma nodes_put_leaf (s : ProofList V) (i : Nat) (v : V) :
    (put_leaf s i v).nodes = s.nodes := rfl

@[simp] lemma stored_len_put_leaf (s : ProofList V) (i : Nat) (v : V) :
    (put_leaf s i v).stored_len = s.stored_len := rfl

@[simp] lemma cache_put_leaf (s : ProofList V) (i : Nat) (v : V) :
    (put_leaf s i v).cache = s.cache := rfl

@[simp] lemma lenVal_put_leaf (s : ProofList V) (i : Nat) (v : V) :
    lenVal (put_leaf s i v) = lenVal s := rfl

lemma leaves_put_leaf (s : ProofList V) (i j : Nat) (v : V) :
    (put_leaf s i v).leaves j = if j = i then some v else s.leaves j := rfl

@[simp] lemma lenVal_set_len (s : ProofList V) (l : Nat) :
    lenVal (set_len s l) = l := rfl

@[simp] lemma stored_len_set_len (s : ProofList V) (l : Nat) :
    (set_len s l).stored_len = some l := rfl

@[simp] lemma cache_set_len (s : ProofList V) (l : Nat) :
    (set_len s l).cache = some l := rfl

@[simp] lemma leaves_set_len (s : ProofList V) (l : Nat) :
    (set_len s l).leaves = s.leaves := rfl

@[simp] lemma nodes_set_len (s : ProofList V) (l : Nat) :
    (set_len s l).nodes = s.nodes := rfl

@[simp] lemma lenRead_fst (s : ProofList V) : (lenRead s).1 = lenVal s := by
  cases hc : s.cache <;> simp [lenRead, lenVal, hc]

@[simp] lemma leaves_lenRead (s : ProofList V) : (lenRead s).2.leaves = s.leaves := by
  cases hc : s.cache <;> simp [lenRead, hc]

@[simp] lemma nodes_lenRead (s : ProofList V) : (lenRead s).2.nodes = s.nodes := by
  cases hc : s.cache <;> simp [lenRead, hc]

@[simp] lemma stored_len_lenRead (s : ProofList V) :
    (lenRead s).2.stored_len = s.stored_len := by
  cases hc : s.cache <;> simp [lenRead, hc]

@[simp] lemma cache_lenRead (s : ProofList V) :
    (lenRead s).2.cache = some (lenVal s) := by
  cases hc : s.cache <;> simp [lenRead, lenVal, hc]

@[simp] lemma lenVal_lenRead (s : ProofList V) : lenVal (lenRead s).2 = lenVal s := by
  simp [lenVal]

/-- The value `merkle_root` only depends on the node map and the length value. -/
lemma merkle_root_congr (s t : ProofList V) (hn : t.nodes = s.nodes)
    (hl : lenVal t = lenVal s) : merkle_root t = merkle_root s := by
  simp [merkle_root, get_branch, has_branch, root_key, height, hn, hl]

/-! ### Arithmetic facts about `next_power_of_two`, `trailing_zeros`, `heightOf` -/

lemma npot_go_spec (n : Nat) :
    ∀ f j, n ≤ 2 ^ (f + j) →
      ∃ k, j ≤ k ∧ npot_go n f (2 ^ j) = 2 ^ k ∧ n ≤ 2 ^ k ∧
        (j < k → 2 ^ (k - 1) < n) := by
  intro f
  induction f with
  | zero =>
    intro j hj
    exact ⟨j, le_refl j, rfl, by simpa using hj, fun h => absurd h (lt_irrefl j)⟩
  | succ f ih =>
    intro j hj
    by_cases hle : n ≤ 2 ^ j
    · exact ⟨j, le_refl j, by simp [npot_go, hle],
        hle, fun h => absurd h (lt_irrefl j)⟩
    · have h2 : (2 : Nat) * 2 ^ j = 2 ^ (j + 1) := by ring
      have hj2 : n ≤ 2 ^ (f + (j + 1)) := by
        have : f + (j + 1) = f + 1 + j := by omega
        rw [this]; exact hj
      obtain ⟨k, hk1, hk2, hk3, hk4⟩ := ih (j + 1) hj2
      refine ⟨k, by omega, ?_, hk3, ?_⟩
      · simp only [npot_go, if_neg hle, h2, hk2]
      · intro hjk
        rcases Nat.lt_or_ge (j + 1) k with hlt | hge
        · exact hk4 hlt
        · have hkj : k = j + 1 := by omega
          subst hkj
          simpa using Nat.lt_of_not_le hle

lemma npot_spec (n : Nat) :
    ∃ k, next_power_of_two n = 2 ^ k ∧ n ≤ 2 ^ k ∧ (0 < k → 2 ^ (k - 1) < n) := by
  have h0 : n ≤ 2 ^ (n + 0) := by
    simpa using Nat.le_of_lt (Nat.lt_two_pow n)
  obtain ⟨k, _, hk2, hk3, hk4⟩ := npot_go_spec n n 0 h0
  exact ⟨k, by simpa [next_power_of_two] using hk2, hk3, fun h => hk4 h⟩

lemma tz_go_pow : ∀ k fuel, k < fuel → tz_go fuel (2 ^ k) = k := by
  intro k
  induction k with
  | zero =>
    intro fuel hf
    obtain ⟨f, rfl⟩ := Nat.exists_eq_succ_of_ne_zero (Nat.pos_iff_ne_zero.mp hf)
    simp [tz_go]
  | succ k ih =>
    intro fuel hf
    obtain ⟨f, rfl⟩ := Nat.exists_eq_succ_of_ne_zero
      (Nat.pos_iff_ne_zero.mp (Nat.lt_of_le_of_lt (Nat.zero_le _) hf))
    have hmod : 2 ^ (k + 1) % 2 = 0 := by
      simp [Nat.pow_succ, Nat.mul_mod_left]
    have hdiv : 2 ^ (k + 1) / 2 = 2 ^ k := by
      simp [Nat.pow_succ]
    simp only [tz_go, hmod, hdiv, if_neg (by omega : ¬ (0 : Nat) = 1)]
    rw [ih f (by omega)]

lemma trailing_zeros_pow (k : Nat) : trailing_zeros (2 ^ k) = k := by
  have hpos : (2 : Nat) ^ k ≠ 0 := Nat.pos_iff_ne_zero.mp (Nat.pos_pow_of_pos k (by omega))
  simp only [trailing_zeros, if_neg hpos]
  exact tz_go_pow k (2 ^ k) (Nat.lt_two_pow k)

lemma heightOf_spec (n : Nat) :
    ∃ k, heightOf n = k + 1 ∧ n ≤ 2 ^ k ∧ (0 < k → 2 ^ (k - 1) < n) := by
  obtain ⟨k, hk1, hk2, hk3⟩ := npot_spec n
  exact ⟨k, by simp [heightOf, hk1, trailing_zeros_pow], hk2, hk3⟩

lemma heightOf_pos (n : Nat) : 0 < heightOf n := by
  obtain ⟨k, hk, _, _⟩ := heightOf_spec n
  omega

lemma le_pow_heightOf (n : Nat) : n ≤ 2 ^ (heightOf n - 1) := by
  obtain ⟨k, hk, hle, _⟩ := heightOf_spec n
  simpa [hk] using hle

lemma le_heightOf_of_pow_le {n h : Nat} (hle : 2 ^ (h - 1) ≤ n) : h ≤ heightOf n := by
  obtain ⟨k, hk, hnk, _⟩ := heightOf_spec n
  have : 2 ^ (h - 1) ≤ 2 ^ k := le_trans hle hnk
  have hh : h - 1 ≤ k := (Nat.pow_le_pow_iff_right (by omega : 1 < 2)).mp this
  omega

lemma heightOf_eq_clog (n : Nat) : heightOf n = Nat.clog 2 n + 1 := by
  obtain ⟨k, hk, hle, hlt⟩ := heightOf_spec n
  have h1 : Nat.clog 2 n ≤ k :=
    (Nat.le_pow_iff_clog_le (by omega : 1 < 2)).mp hle
  have h2 : k ≤ Nat.clog 2 n := by
    rcases Nat.eq_zero_or_pos k with hk0 | hk0
    · omega
    · have := hlt hk0
      have hnot : ¬ n ≤ 2 ^ (k - 1) := by omega
      have : ¬ Nat.clog 2 n ≤ k - 1 := fun hc =>
        hnot ((Nat.le_pow_iff_clog_le (by omega : 1 < 2)).mpr hc)
      omega
  omega

/-! ### The `push` upward walk: frame, coverage and success lemmas -/

/-- The upward walk never touches the leaves, the length or the cache,
writes no node at or below the starting height, and never removes a
node. -/
lemma push_loop_frame : ∀ (fuel : Nat) (s t : ProofList V) (key : ProofListKey),
    push_loop s key fuel = some t →
    t.leaves = s.leaves ∧ t.stored_len = s.stored_len ∧ t.cache = s.cache ∧
    (∀ k, k.height ≤ key.height → t.nodes k = s.nodes k) ∧
    (∀ k, (s.nodes k).isSome → (t.nodes k).isSome) := by
  intro fuel
  induction fuel with
  | zero =>
    intro s t key hp
    by_cases hc : key.height < height s <;> simp [push_loop, hc] at hp
    subst hp
    exact ⟨rfl, rfl, rfl, fun _ _ => rfl, fun _ h => h⟩
  | succ fuel ih =>
    intro s t key hp
    by_cases hc : key.height < height s
    · simp only [push_loop, if_pos hc] at hp
      rcases hh : (if key.is_left then
            (get_branch_unchecked s key).map hash_single_node
          else
            (get_branch_unchecked s key.as_left).bind fun lh =>
              (get_branch_unchecked s key).map fun rh => hash_node lh rh) with
        _ | hsh
      · rw [hh] at hp; simp at hp
      · rw [hh] at hp
        simp only at hp
        obtain ⟨h1, h2, h3, h4, h5⟩ := ih _ _ _ hp
        refine ⟨by simp [h1], by simp [h2], by simp [h3], ?_, ?_⟩
        · intro k hk
          rw [h4 k (by simp [ProofListKey.parent]; omega)]
          rw [nodes_set_branch]
          have : ¬ k = key.parent := by
            intro he
            rw [he] at hk
            simp [ProofListKey.parent] at hk
          simp [this]
        · intro k hk
          apply h5
          rw [nodes_set_branch]
          by_cases he : k = key.parent <;> simp [he, hk]
    · simp only [push_loop, if_neg hc] at hp
      obtain rfl : s = t := by injection hp
      exact ⟨rfl, rfl, rfl, fun _ _ => rfl, fun _ h => h⟩

/-- If the upward walk completes, it has stored a node on the whole
ancestor chain from the starting key up to the tree height. -/
lemma push_loop_coverage : ∀ (fuel : Nat) (s t : ProofList V) (key : ProofListKey),
    push_loop s key fuel = some t →
    (s.nodes key).isSome →
    ∀ h2, key.height ≤ h2 → h2 ≤ height s →
      (t.nodes ⟨h2, key.index / 2 ^ (h2 - key.height)⟩).isSome := by
  intro fuel
  induction fuel with
  | zero =>
    intro s t key hp hcur h2 hlo hhi
    by_cases hc : key.height < height s <;> simp [push_loop, hc] at hp
    subst hp
    have : h2 = key.height := by omega
    subst this
    simpa [Nat.div_one] using hcur
  | succ fuel ih =>
    intro s t key hp hcur h2 hlo hhi
    by_cases hc : key.height < height s
    · simp only [push_loop, if_pos hc] at hp
      rcases hh : (if key.is_left then
            (get_branch_unchecked s key).map hash_single_node
          else
            (get_branch_unchecked s key.as_left).bind fun lh =>
              (get_branch_unchecked s key).map fun rh => hash_node lh rh) with
        _ | hsh
      · rw [hh] at hp; simp at hp
      · rw [hh] at hp
        simp only at hp
        rcases Nat.eq_or_lt_of_le hlo with heq | hlt
        · -- the starting node itself: preserved by the rest of the walk
          obtain ⟨_, _, _, h4, _⟩ := push_loop_frame fuel _ t _ hp
          subst heq
          have hkk : (⟨key.height, key.index / 2 ^ (key.height - key.height)⟩ :
              ProofListKey) = key := by
            cases key; simp
          rw [hkk]
          rw [h4 key (by simp [ProofListKey.parent])]
          rw [nodes_set_branch]
          have hne : ¬ key = key.parent := by
            intro he
            have : key.height = key.parent.height := by rw [← he]
            simp [ProofListKey.parent] at this
          simp [hne, hcur]
        · -- strictly above: provided by the recursive call
          have hcur2 : ((set_branch s key.parent hsh).nodes key.parent).isSome := by
            rw [nodes_set_branch]; simp
          have := ih _ _ key.parent hp hcur2 h2
            (by simp [ProofListKey.parent]; omega)
            (by simpa [ProofListKey.parent, height] using hhi)
          have hidx : key.parent.index / 2 ^ (h2 - key.parent.height) =
              key.index / 2 ^ (h2 - key.height) := by
            simp only [ProofListKey.parent]
            rw [Nat.div_div_eq_div_mul]
            congr 1
            have : h2 - key.height = (h2 - (key.height + 1)) + 1 := by omega
            rw [this, pow_succ]
            ring
          rw [hidx] at this
          simpa [ProofListKey.parent] using this
    · simp only [push_loop, if_neg hc] at hp
      obtain rfl : s = t := by injection hp
      have : h2 = key.height := by simpa [height] using by omega
      subst this
      simpa [Nat.div_one] using hcur

/-- Success of the upward walk of `push`, starting from the freshly
written height-1 node of the new leaf `n`, given the authentication-path
invariant for the previous length `n`. -/
lemma push_loop_success (n : Nat) :
    ∀ (fuel h : Nat) (s : ProofList V),
    lenVal s = n + 1 →
    1 ≤ h →
    (s.nodes ⟨h, n / 2 ^ (h - 1)⟩).isSome →
    (∀ h2 i, 1 ≤ h2 → h2 ≤ heightOf n → i * 2 ^ (h2 - 1) < n →
      (s.nodes ⟨h2, i⟩).isSome) →
    heightOf (n + 1) ≤ fuel + h →
    (push_loop s ⟨h, n / 2 ^ (h - 1)⟩ fuel).isSome := by
  intro fuel
  induction fuel with
  | zero =>
    intro h s hlen _ _ _ hfuel
    have hc : ¬ (ProofListKey.height ⟨h, n / 2 ^ (h - 1)⟩ < height s) := by
      simp only [height, hlen]; simp; omega
    simp [push_loop, hc]
  | succ fuel ih =>
    intro h s hlen hh hcur hinv hfuel
    by_cases hc : (ProofListKey.height ⟨h, n / 2 ^ (h - 1)⟩ < height s)
    · simp only [push_loop, if_pos hc]
      set m := n / 2 ^ (h - 1) with hm
      have hpow : 0 < 2 ^ (h - 1) := Nat.pos_pow_of_pos _ (by omega)
      have hml : m * 2 ^ (h - 1) ≤ n := Nat.div_mul_le_self n _
      have hread : (if (ProofListKey.is_left ⟨h, m⟩) then
            (get_branch_unchecked s ⟨h, m⟩).map hash_single_node
          else
            (get_branch_unchecked s (ProofListKey.as_left ⟨h, m⟩)).bind fun lh =>
              (get_branch_unchecked s ⟨h, m⟩).map fun rh => hash_node lh rh).isSome := by
        by_cases hev : m % 2 = 0
        · rw [if_pos (by simp [ProofListKey.is_left, hev])]
          rcases Option.isSome_iff_exists.mp hcur with ⟨rh, hrh⟩
          simp [get_branch_unchecked, hrh]
        · rw [if_neg (by simp [ProofListKey.is_left, hev])]
          have hodd : m % 2 = 1 := by omega
          have hm1 : 1 ≤ m := by
            rcases Nat.eq_zero_or_pos m with h0 | h1
            · rw [h0] at hodd; simp at hodd
            · exact h1
          have hleft : (s.nodes ⟨h, m - 1⟩).isSome := by
            apply hinv h (m - 1) hh
            · apply le_heightOf_of_pow_le
              calc 2 ^ (h - 1) = 1 * 2 ^ (h - 1) := by ring
              _ ≤ m * 2 ^ (h - 1) := Nat.mul_le_mul_right _ hm1
              _ ≤ n := hml
            · calc (m - 1) * 2 ^ (h - 1) < m * 2 ^ (h - 1) :=
                (Nat.mul_lt_mul_right hpow).mpr (by omega)
              _ ≤ n := hml
          have hal : (ProofListKey.as_left ⟨h, m⟩) = ⟨h, m - 1⟩ := by
            simp [ProofListKey.as_left, hodd]
          rw [hal]
          rcases Option.isSome_iff_exists.mp hleft with ⟨lh, hlh⟩
          rcases Option.isSome_iff_exists.mp hcur with ⟨rh, hrh⟩
          simp [get_branch_unchecked, hlh, hrh]
      rcases Option.isSome_iff_exists.mp hread with ⟨hsh, hread2⟩
      rw [hread2]
      simp only
      have hpar : (ProofListKey.parent ⟨h, m⟩) = ⟨h + 1, n / 2 ^ h⟩ := by
        simp only [ProofListKey.parent, hm]
        congr 1
        rw [Nat.div_div_eq_div_mul]
        congr 1
        have : h = (h - 1) + 1 := by omega
        rw [this, pow_succ]
        simp
      rw [hpar]
      have hkey2 : (⟨h + 1, n / 2 ^ h⟩ : ProofListKey) =
          ⟨h + 1, n / 2 ^ ((h + 1) - 1)⟩ := by simp
      rw [hkey2]
      apply ih (h + 1)
      · simp [hlen]
      · omega
      · rw [nodes_set_branch]
        simp
      · intro h2 i hh2 hht hi
        rw [nodes_set_branch]
        by_cases he : (⟨h2, i⟩ : ProofListKey) = ⟨h + 1, n / 2 ^ ((h + 1) - 1)⟩
        · simp [he]
        · simp only [if_neg he]
          exact hinv h2 i hh2 hht hi
      · omega
    · simp [push_loop, if_neg hc]

/-! ### The push invariant and correctness of sequences of pushes -/

/-- The authentication-path presence invariant (spec section 3,
invariant 2, presence part): every branch whose subtree covers at least
one real leaf, up to the tree height, is stored. -/
def Inv (s : ProofList V) : Prop :=
  ∀ h i, 1 ≤ h → h ≤ heightOf (lenVal s) → i * 2 ^ (h - 1) < lenVal s →
    (s.nodes ⟨h, i⟩).isSome

/-- Lemma: `push` unfolded to its four sequential state updates followed by the
upward walk. -/
lemma push_eq (s : ProofList V) (v : V) :
    push s v = push_loop
      (put_leaf (set_branch (set_len (lenRead s).2 (lenVal s + 1))
        (ProofListKey.new 1 (lenVal s)) (hash_leaf v)) (lenVal s) v)
      (ProofListKey.new 1 (lenVal s))
      (heightOf (lenVal s + 1)) := by
  simp only [push, lenRead_fst, height, lenVal_put_leaf, lenVal_set_branch,
    lenVal_set_len]

/-- Everything a successful `push` guarantees about the resulting state,
with no assumption on the starting state: the new length is persisted
and cached, the new leaf and its height-1 hash are stored, other leaves
are untouched, and the node at the (new) root key is present. -/
lemma push_facts (s t : ProofList V) (v : V) (hp : push s v = some t) :
    lenVal t = lenVal s + 1 ∧
    t.stored_len = some (lenVal s + 1) ∧
    t.cache = some (lenVal s + 1) ∧
    (∀ j, t.leaves j = if j = lenVal s then some v else s.leaves j) ∧
    t.nodes ⟨1, lenVal s⟩ = some (hash_leaf v) ∧
    (t.nodes (root_key t)).isSome := by
  rw [push_eq] at hp
  obtain ⟨hfl, hfs, hfc, hflow, hmono⟩ := push_loop_frame _ _ _ _ hp
  have hcur : ((put_leaf (set_branch (set_len (lenRead s).2 (lenVal s + 1))
      (ProofListKey.new 1 (lenVal s)) (hash_leaf v)) (lenVal s) v).nodes
        (ProofListKey.new 1 (lenVal s))).isSome := by
    simp [nodes_set_branch]
  have hcov := push_loop_coverage _ _ _ _ hp hcur
  have hcache : t.cache = some (lenVal s + 1) := by
    rw [hfc]; simp
  have hlen : lenVal t = lenVal s + 1 := by
    simp [lenVal, hcache]
  refine ⟨hlen, by rw [hfs]; simp, hcache, ?_, ?_, ?_⟩
  · intro j
    rw [hfl]
    rw [leaves_put_leaf]
    simp
  · have := hflow ⟨1, lenVal s⟩ (by simp [ProofListKey.new])
    rw [this]
    simp [ProofListKey.new, nodes_set_branch]
  · have hroot : root_key t = ⟨heightOf (lenVal s + 1), 0⟩ := by
      simp [root_key, height, hlen, ProofListKey.new]
    rw [hroot]
    have h0 : lenVal s / 2 ^ (heightOf (lenVal s + 1) - 1) = 0 := by
      apply Nat.div_eq_of_lt
      have := le_pow_heightOf (lenVal s + 1)
      omega
    have := hcov (heightOf (lenVal s + 1))
      (by simp [ProofListKey.new]; exact heightOf_pos _)
      (by simp [ProofListKey.new, height])
    simpa [ProofListKey.new, h0] using this

/-- Under the presence invariant, `push` always succeeds, and the
invariant is preserved. -/
lemma push_ok (s : ProofList V) (v : V) (hinv : Inv s) :
    ∃ t, push s v = some t ∧ Inv t := by
  set n := lenVal s with hn
  set s3 := put_leaf (set_branch (set_len (lenRead s).2 (n + 1))
    (ProofListKey.new 1 n) (hash_leaf v)) n v with hs3
  have hlen3 : lenVal s3 = n + 1 := by simp [hs3]
  have hcur : (s3.nodes ⟨1, n / 2 ^ (1 - 1)⟩).isSome := by
    simp [hs3, nodes_set_branch, ProofListKey.new]
  have hinv3 : ∀ h2 i, 1 ≤ h2 → h2 ≤ heightOf n → i * 2 ^ (h2 - 1) < n →
      (s3.nodes ⟨h2, i⟩).isSome := by
    intro h2 i h1 h2h hi
    simp only [hs3, nodes_put_leaf, nodes_set_branch, nodes_set_len]
    by_cases he : (⟨h2, i⟩ : ProofListKey) = ProofListKey.new 1 n
    · simp [he]
    · simp only [if_neg he, nodes_lenRead]
      exact hinv h2 i h1 h2h hi
  have hsucc : (push_loop s3 ⟨1, n / 2 ^ (1 - 1)⟩ (heightOf (n + 1))).isSome :=
    push_loop_success n (heightOf (n + 1)) 1 s3 hlen3 (le_refl 1) hcur hinv3
      (by omega)
  have hk : (⟨1, n / 2 ^ (1 - 1)⟩ : ProofListKey) = ProofListKey.new 1 n := by
    simp [ProofListKey.new]
  rw [hk] at hsucc
  rcases Option.isSome_iff_exists.mp hsucc with ⟨t, ht⟩
  have hp : push s v = some t := by rw [push_eq, ← hs3, ← hn]; exact ht
  refine ⟨t, hp, ?_⟩
  -- the invariant at the new length
  obtain ⟨hlen, _, _, _, _, _⟩ := push_facts s t v hp
  rw [← hn] at hlen
  rw [push_eq, ← hs3, ← hn] at hp
  obtain ⟨_, _, _, hflow, hmono⟩ := push_loop_frame _ _ _ _ hp
  have hcov := push_loop_coverage _ _ _ _ hp (by rw [← hk]; exact hcur)
  intro h i h1 hht hi
  rw [hlen] at hht hi
  have hpow : 0 < 2 ^ (h - 1) := Nat.pos_pow_of_pos _ (by omega)
  by_cases hie : i = n / 2 ^ (h - 1)
  · subst hie
    have := hcov h (by simp [ProofListKey.new]; omega)
      (by simp [ProofListKey.new, height, hlen3]; omega)
    simpa [ProofListKey.new] using this
  · have hile : i ≤ n / 2 ^ (h - 1) :=
      (Nat.le_div_iff_mul_le hpow).mpr (by omega)
    have hilt : i < n / 2 ^ (h - 1) := by omega
    have h1d : 1 ≤ n / 2 ^ (h - 1) := by omega
    have hpn : 2 ^ (h - 1) ≤ n := by
      have := (Nat.le_div_iff_mul_le hpow).mp h1d
      simpa using this
    have hhn : h ≤ heightOf n := le_heightOf_of_pow_le hpn
    have hin : i * 2 ^ (h - 1) < n := by
      have hstep : (i + 1) * 2 ^ (h - 1) ≤ n :=
        (Nat.le_div_iff_mul_le hpow).mp hilt
      have hexp : (i + 1) * 2 ^ (h - 1) = i * 2 ^ (h - 1) + 2 ^ (h - 1) := by ring
      omega
    exact hmono _ (hinv3 h i h1 hhn hin)

/-- Predicate: `s` stores exactly the list `vs`: correct length, leaf `j` holds
`vs[j]`, and the authentication path is present. -/
def Models (s : ProofList V) (vs : List V) : Prop :=
  lenVal s = vs.length ∧ (∀ j, s.leaves j = vs.get? j) ∧ Inv s

lemma models_empty : Models (empty0 : ProofList V) [] := by
  refine ⟨rfl, fun j => by simp [empty0], ?_⟩
  intro h i _ _ h3
  simp [empty0, lenVal] at h3

lemma push_models (s : ProofList V) (vs : List V) (v : V) (hm : Models s vs) :
    ∃ t, push s v = some t ∧ Models t (vs ++ [v]) := by
  obtain ⟨hlen, hleaves, hinv⟩ := hm
  obtain ⟨t, hp, hinvt⟩ := push_ok s v hinv
  obtain ⟨hlent, _, _, hleavest, _, _⟩ := push_facts s t v hp
  refine ⟨t, hp, ?_, ?_, hinvt⟩
  · simp [hlent, hlen]
  · intro j
    rw [hleavest j, hlen]
    by_cases hj : j = vs.length
    · subst hj
      simp [List.get?_concat_length]
    · rw [if_neg hj]
      rcases Nat.lt_or_ge j vs.length with hjl | hjg
      · rw [List.get?_append hjl]
        exact hleaves j
      · have hj2 : vs.length < j := by omega
        rw [hleaves j]
        rw [List.get?_eq_none.mpr (by omega)]
        rw [List.get?_eq_none.mpr (by simp; omega)]

lemma push_all_models : ∀ (ws : List V) (s : ProofList V) (vs : List V),
    Models s vs → ∃ t, push_all s ws = some t ∧ Models t (vs ++ ws) := by
  intro ws
  induction ws with
  | nil =>
    intro s vs hm
    exact ⟨s, rfl, by simpa using hm⟩
  | cons w ws ih =>
    intro s vs hm
    obtain ⟨t1, hp1, hm1⟩ := push_models s vs w hm
    obtain ⟨t, hp, hmt⟩ := ih t1 (vs ++ [w]) hm1
    refine ⟨t, ?_, ?_⟩
    · simp only [push_all, hp1, Option.some_bind]
      exact hp
    · simpa using hmt

/-! ### The `set` upward walk: frame and idempotence -/

/-- Rewriting a node with the value it already holds is a no-op. -/
lemma set_branch_self (s : ProofList V) (k : ProofListKey) (h : Hash V)
    (hk : s.nodes k = some h) : set_branch s k h = s := by
  have hfun : (fun k2 => if k2 = k then some h else s.nodes k2) = s.nodes := by
    funext k2
    by_cases he : k2 = k
    · rw [if_pos he, he, hk]
    · rw [if_neg he]
  unfold set_branch
  rw [hfun]

/-- Rewriting a leaf with the value it already holds is a no-op. -/
lemma put_leaf_self (s : ProofList V) (i : Nat) (v : V)
    (hi : s.leaves i = some v) : put_leaf s i v = s := by
  have hfun : (fun j => if j = i then some v else s.leaves j) = s.leaves := by
    funext j
    by_cases he : j = i
    · rw [if_pos he, he, hi]
    · rw [if_neg he]
  unfold put_leaf
  rw [hfun]

/-- Lemma: `lenRead` on a populated cache is the identity. -/
lemma lenRead_of_cache (s : ProofList V) (l : Nat) (h : s.cache = some l) :
    lenRead s = (l, s) := by
  simp [lenRead, h]

/-- The upward walk of `set` never touches the leaves, the length or
the cache, and writes no node at or below the starting height. -/
lemma set_loop_frame : ∀ (fuel : Nat) (s t : ProofList V) (key : ProofListKey),
    set_loop s key fuel = some t →
    t.leaves = s.leaves ∧ t.stored_len = s.stored_len ∧ t.cache = s.cache ∧
    (∀ k, k.height ≤ key.height → t.nodes k = s.nodes k) := by
  intro fuel
  induction fuel with
  | zero =>
    intro s t key hp
    by_cases hc : key.height < height s <;> simp [set_loop, hc] at hp
    subst hp
    exact ⟨rfl, rfl, rfl, fun _ _ => rfl⟩
  | succ fuel ih =>
    intro s t key hp
    by_cases hc : key.height < height s
    · simp only [set_loop, if_pos hc] at hp
      rcases hh : (if has_branch s key.as_right then
            (get_branch_unchecked s key.as_left).bind fun lh =>
              (get_branch_unchecked s key.as_right).map fun rh => hash_node lh rh
          else
            (get_branch_unchecked s key.as_left).map hash_single_node) with
        _ | hsh
      · rw [hh] at hp; simp at hp
      · rw [hh] at hp
        simp only at hp
        obtain ⟨h1, h2, h3, h4⟩ := ih _ _ _ hp
        refine ⟨by simp [h1], by simp [h2], by simp [h3], ?_⟩
        intro k hk
        rw [h4 k (by simp [ProofListKey.parent]; omega)]
        rw [nodes_set_branch]
        have : ¬ k = key.parent := by
          intro he
          rw [he] at hk
          simp [ProofListKey.parent] at hk
        simp [this]
    · simp only [set_loop, if_neg hc] at hp
      obtain rfl : s = t := by injection hp
      exact ⟨rfl, rfl, rfl, fun _ _ => rfl⟩

/-- Running the `set` walk again from its own result recomputes exactly
the hashes it has just written, so it succeeds and changes nothing. -/
lemma set_loop_idem : ∀ (fuel : Nat) (s t : ProofList V) (key : ProofListKey),
    set_loop s key fuel = some t → set_loop t key fuel = some t := by
  intro fuel
  induction fuel with
  | zero =>
    intro s t key hp
    by_cases hc : key.height < height s <;> simp [set_loop, hc] at hp
    subst hp
    simp [set_loop, hc]
  | succ fuel ih =>
    intro s t key hp
    by_cases hc : key.height < height s
    · simp only [set_loop, if_pos hc] at hp
      rcases hh : (if has_branch s key.as_right then
            (get_branch_unchecked s key.as_left).bind fun lh =>
              (get_branch_unchecked s key.as_right).map fun rh => hash_node lh rh
          else
            (get_branch_unchecked s key.as_left).map hash_single_node) with
        _ | hsh
      · rw [hh] at hp; simp at hp
      · rw [hh] at hp
        simp only at hp
        obtain ⟨hfl, hfs, hfc, hflow⟩ := set_loop_frame fuel _ t _ hp
        have hlen : lenVal t = lenVal s := by
          simp [lenVal, hfc, hfs]
        have hct : key.height < height t := by
          simpa [height, hlen] using hc
        have hnal : t.nodes key.as_left = s.nodes key.as_left := by
          rw [hflow key.as_left (by simp [ProofListKey.as_left, ProofListKey.parent])]
          rw [nodes_set_branch]
          have : ¬ key.as_left = key.parent := by
            intro he
            have : key.as_left.height = key.parent.height := by rw [he]
            simp [ProofListKey.as_left, ProofListKey.parent] at this
          simp [this]
        have hnar : t.nodes key.as_right = s.nodes key.as_right := by
          rw [hflow key.as_right (by simp [ProofListKey.as_right, ProofListKey.parent])]
          rw [nodes_set_branch]
          have : ¬ key.as_right = key.parent := by
            intro he
            have : key.as_right.height = key.parent.height := by rw [he]
            simp [ProofListKey.as_right, ProofListKey.parent] at this
          simp [this]
        have hbr : has_branch t key.as_right = has_branch s key.as_right := by
          simp [has_branch, hlen]
        have hh2 : (if has_branch t key.as_right then
              (get_branch_unchecked t key.as_left).bind fun lh =>
                (get_branch_unchecked t key.as_right).map fun rh => hash_node lh rh
            else
              (get_branch_unchecked t key.as_left).map hash_single_node) = some hsh := by
          rw [hbr]
          simp only [get_branch_unchecked, hnal, hnar]
          exact hh
        have hkp : t.nodes key.parent = some hsh := by
          rw [hflow key.parent (le_refl _)]
          rw [nodes_set_branch]
          simp
        simp only [set_loop, if_pos hct, hh2]
        rw [set_branch_self t key.parent hsh hkp]
        exact ih _ _ _ hp
    · simp only [set_loop, if_neg hc] at hp
      obtain rfl : s = t := by injection hp
      simp [set_loop, hc]

/-- Lemma: `set` with an in-bounds index, unfolded to its sequential updates
followed by the upward walk. -/
lemma set_eq (s : ProofList V) (i : Nat) (v : V) (hlt : i < lenVal s) :
    set s i v = set_loop
      (put_leaf (set_branch (lenRead s).2 (ProofListKey.new 1 i) (hash_leaf v)) i v)
      (ProofListKey.new 1 i)
      (heightOf (lenVal s)) := by
  simp only [set, lenRead_fst, height, lenVal_put_leaf, lenVal_set_branch,
    lenVal_lenRead]
  rw [if_neg (by omega)]

/-- Lemma: `set` panics exactly as the source does when the index is not below
the length. -/
lemma set_none (s : ProofList V) (i : Nat) (v : V) (h : lenVal s ≤ i) :
    set s i v = none := by
  simp only [set, lenRead_fst]
  rw [if_pos h]

/-- Everything a successful `set` guarantees: the index was in bounds,
the length (stored and observed) is unchanged, other leaves are
untouched, and the new leaf and its height-1 hash are stored. -/
lemma set_facts (s t : ProofList V) (i : Nat) (v : V) (hp : set s i v = some t) :
    i < lenVal s ∧ lenVal t = lenVal s ∧ t.stored_len = s.stored_len ∧
    (∀ j, j ≠ i → t.leaves j = s.leaves j) ∧
    t.leaves i = some v ∧ t.cache = some (lenVal s) ∧
    t.nodes (ProofListKey.new 1 i) = some (hash_leaf v) := by
  by_cases hli : lenVal s ≤ i
  · rw [set_none s i v hli] at hp
    simp at hp
  · have hlt : i < lenVal s := by omega
    rw [set_eq s i v hlt] at hp
    obtain ⟨hfl, hfs, hfc, hflow⟩ := set_loop_frame _ _ _ _ hp
    have hcache : t.cache = some (lenVal s) := by rw [hfc]; simp
    refine ⟨hlt, by simp [lenVal, hcache], by rw [hfs]; simp, ?_, ?_, hcache, ?_⟩
    · intro j hj
      rw [hfl, leaves_put_leaf, if_neg hj]
      simp
    · rw [hfl, leaves_put_leaf, if_pos rfl]
    · rw [hflow (ProofListKey.new 1 i) (le_refl _)]
      simp [nodes_set_branch]

/-- Full idempotence of `set`: repeating a successful `set` with the
same arguments succeeds and returns the very same state. -/
lemma set_idem (s t : ProofList V) (i : Nat) (v : V) (hp : set s i v = some t) :
    set t i v = some t := by
  obtain ⟨hlt, hlen, _, _, hli, hcache, hn1⟩ := set_facts s t i v hp
  rw [set_eq s i v hlt] at hp
  rw [set_eq t i v (by omega)]
  rw [lenRead_of_cache t (lenVal s) hcache]
  rw [set_branch_self t (ProofListKey.new 1 i) (hash_leaf v) hn1]
  rw [put_leaf_self t i v hli]
  rw [hlen]
  exact set_loop_idem _ _ _ _ hp

/-! ### Unfolding and state lemmas for `get_range_proof` -/

/-- Lemma: `get_range_proof` unfolded (definitional). -/
lemma get_range_proof_eq (s : ProofList V) (a b : Bound) :
    get_range_proof s a b =
      if (resolve_end s b).1 ≤ resolve_start a then
        (RangeOutcome.illegal_range (resolve_start a) (resolve_end s b).1,
          (resolve_end s b).2)
      else
        if (lenRead (resolve_end s b).2).1 < (resolve_end s b).1 then
          (RangeOutcome.proof (ListProof.Absent
              (lenVal (lenRead (resolve_end s b).2).2)
              (merkle_root (lenRead (resolve_end s b).2).2)),
            (lenRead (resolve_end s b).2).2)
        else
          match construct_proof (lenRead (resolve_end s b).2).2
              (root_key (lenRead (resolve_end s b).2).2)
              (resolve_start a) (resolve_end s b).1 with
          | some pr => (RangeOutcome.proof pr, (lenRead (resolve_end s b).2).2)
          | none => (RangeOutcome.storage_panic, (lenRead (resolve_end s b).2).2)
  := rfl

/-- Resolving the end bound leaves every observable component of the
state unchanged (at most the cache is populated). -/
lemma resolve_end_state (s : ProofList V) (b : Bound) :
    (resolve_end s b).2.leaves = s.leaves ∧
    (resolve_end s b).2.nodes = s.nodes ∧
    (resolve_end s b).2.stored_len = s.stored_len ∧
    lenVal (resolve_end s b).2 = lenVal s := by
  cases b <;> simp [resolve_end]

/-! ### Concrete states used by witnesses and counterexamples -/

/-- A two-element list `[1, 2]` built by pushes. -/
def twoList : ProofList Nat := (push_all empty0 [1, 2]).getD empty0

/-- A three-element list `[1, 2, 3]` built by pushes. -/
def threeList : ProofList Nat := (push_all empty0 [1, 2, 3]).getD empty0

/-- A five-element list `[1, 2, 3, 4, 5]` built by pushes. -/
def fiveList : ProofList Nat := (push_all empty0 [1, 2, 3, 4, 5]).getD empty0

/-- State `twoList` after one more push of `3`. -/
def pushedThree : ProofList Nat := (push twoList 3).getD empty0

/-- A three-element list `[10, 20, 30]` built by pushes. -/
def sampleList : ProofList Nat := (push_all empty0 [10, 20, 30]).getD empty0

/-- State `sampleList` after `set 1 99`. -/
def sampleSet : ProofList Nat := (set sampleList 1 99).getD empty0

/-- The write order stated by the spec sentence behind claim C7, for
comparison with `push`: first the leaf value and its height-1 hash, then
the upward walk, and only as the last step the length update (so the
walk runs against the pre-increment height and length). -/
def push_claim_order (s : ProofList V) (v : V) : Option (ProofList V) :=
  let p := lenRead s
  let key : ProofListKey := ProofListKey.new 1 p.1
  let s1 := put_leaf p.2 p.1 v
  let s2 := set_branch s1 key (hash_leaf v)
  (push_loop s2 key (height s2)).map (fun t => set_len t (p.1 + 1))

/-! ### The claims -/

/-- Claim C1: pushing `v_0 … v_{n-1}` in order into a fresh index makes
`get i` return `v_i` for every `i < n`, and `last` return `v_{n-1}`. -/
theorem C1_push_get_last (vs : List V) (i : Nat) (hi : i < vs.length) :
    (push_all (empty0 : ProofList V) vs).bind (fun t => get t i) =
      some (vs.get ⟨i, hi⟩) ∧
    (push_all (empty0 : ProofList V) vs).bind last = vs.getLast? := by
  obtain ⟨t, ht, hm⟩ := push_all_models vs empty0 [] models_empty
  rw [List.nil_append] at hm
  obtain ⟨hlen, hleaves, _⟩ := hm
  rw [ht]
  constructor
  · simp only [Option.some_bind]
    rw [show get t i = t.leaves i from rfl, hleaves i]
    exact List.get?_eq_get hi
  · simp only [Option.some_bind]
    rw [List.getLast?_eq_get? vs]
    rcases hv : vs.length with _ | m
    · omega
    · have hlast : last t = get t m := by
        simp [last, hlen, hv]
      rw [hlast, show get t m = t.leaves m from rfl, hleaves m]
      simp

/-- Witness for C1 at the concrete pushes `[10, 20, 30]`. -/
theorem C1_witness :
    (push_all (empty0 : ProofList Nat) [10, 20, 30]).bind (fun t => get t 1) =
      some ([10, 20, 30].get ⟨1, by decide⟩) ∧
    (push_all (empty0 : ProofList Nat) [10, 20, 30]).bind last =
      [10, 20, 30].getLast? :=
  C1_push_get_last [10, 20, 30] 1 (by decide)

/-- Claim C2, amended: the height of a list of length `n` is
`trailing_zeros(next_power_of_two(n)) + 1 = ceil(log2(max(n,1))) + 1`
(the original claim said floor instead of ceiling), and is 1 for
`n ∈ {0, 1}`. -/
theorem C2_height_formula (s : ProofList V) :
    height s = trailing_zeros (next_power_of_two (lenVal s)) + 1 ∧
    height s = Nat.clog 2 (max (lenVal s) 1) + 1 ∧
    (lenVal s ≤ 1 → height s = 1) := by
  refine ⟨rfl, ?_, ?_⟩
  · rw [show height s = heightOf (lenVal s) from rfl, heightOf_eq_clog]
    have hmx : Nat.clog 2 (max (lenVal s) 1) = Nat.clog 2 (lenVal s) := by
      rcases Nat.eq_zero_or_pos (lenVal s) with h0 | h1
      · rw [h0]
        simp
      · rw [Nat.max_eq_left h1]
    rw [hmx]
  · intro h01
    have : lenVal s = 0 ∨ lenVal s = 1 := by omega
    rcases this with h | h <;>
      rw [show height s = heightOf (lenVal s) from rfl, h] <;> decide

/-- Witness for C2 at the empty list. -/
theorem C2_witness :
    height (empty0 (V := Nat)) = Nat.clog 2 (max (lenVal (empty0 (V := Nat))) 1) + 1 ∧
    height (empty0 (V := Nat)) = 1 :=
  ⟨(C2_height_formula empty0).2.1, (C2_height_formula empty0).2.2 (by decide)⟩

/-- Counterexample to C2 as stated: at length 3 the code computes
height 3, while the floor-log formula of the claim gives 2. -/
theorem C2_counterexample :
    height threeList ≠ Nat.log 2 (max (lenVal threeList) 1) + 1 := by
  have h3 : lenVal threeList = 3 := by decide
  have hh : height threeList = 3 := by decide
  have hl : Nat.log 2 3 = 1 :=
    Nat.log_eq_of_pow_le_of_lt_pow (by norm_num) (by norm_num)
  rw [hh, h3, Nat.max_eq_left (by norm_num), hl]
  omega

/-- Claim C3: `list_hash = H(tag_list, len, merkle_root)` for every
state, and for `len = 0` the root is `H::default()` and the list hash is
the fixed `empty_list_hash`. -/
theorem C3_list_hash (s : ProofList V) :
    list_hash s = hash_list_node (lenVal s) (merkle_root s) ∧
    (lenVal s = 0 → merkle_root s = Hash.default ∧ list_hash s = empty_list_hash) := by
  refine ⟨rfl, ?_⟩
  intro h0
  have hmr : merkle_root s = Hash.default := by
    simp [merkle_root, get_branch, has_branch, root_key,
      ProofListKey.first_left_leaf_index, ProofListKey.new, h0]
  refine ⟨hmr, ?_⟩
  rw [show list_hash s = hash_list_node (lenVal s) (merkle_root s) from rfl, h0, hmr]
  rfl

/-- Witness for C3 at the fresh empty index. -/
theorem C3_witness :
    merkle_root (empty0 (V := Nat)) = Hash.default ∧
    list_hash (empty0 (V := Nat)) = empty_list_hash :=
  (C3_list_hash empty0).2 rfl

/-- Claim C4: `get_proof i` is the `Absent` variant with the current
length and Merkle root when `i ≥ len`, and is
`construct_proof(root_key, i, i + 1)` when `i < len`. -/
theorem C4_get_proof (s : ProofList V) (i : Nat) :
    (lenVal s ≤ i →
      get_proof s i = some (ListProof.Absent (lenVal s) (merkle_root s))) ∧
    (i < lenVal s →
      get_proof s i = construct_proof s (root_key s) i (i + 1)) := by
  constructor
  · intro h
    unfold get_proof
    rw [if_pos h]
  · intro h
    unfold get_proof
    rw [if_neg (by omega)]

/-- Witness for C4 on `threeList`, at an out-of-bounds and an in-bounds
index. -/
theorem C4_witness :
    get_proof threeList 5 =
      some (ListProof.Absent (lenVal threeList) (merkle_root threeList)) ∧
    get_proof threeList 1 = construct_proof threeList (root_key threeList) 1 2 :=
  ⟨(C4_get_proof threeList 5).1 (by decide), (C4_get_proof threeList 1).2 (by decide)⟩

/-- Claim C5: `Included(x)` and `Excluded(x)` resolve identically to `x`
for both bounds of `get_range_proof`; an unbounded start resolves to 0
and an unbounded end to `len`. -/
theorem C5_range_bounds (s : ProofList V) (x : Nat) (a b : Bound) :
    resolve_start (Bound.included x) = x ∧
    resolve_start (Bound.excluded x) = x ∧
    resolve_start Bound.unbounded = 0 ∧
    (resolve_end s (Bound.included x)).1 = x ∧
    (resolve_end s (Bound.excluded x)).1 = x ∧
    (resolve_end s Bound.unbounded).1 = lenVal s ∧
    get_range_proof s (Bound.included x) b = get_range_proof s (Bound.excluded x) b ∧
    get_range_proof s a (Bound.included x) = get_range_proof s a (Bound.excluded x) :=
  ⟨rfl, rfl, rfl, rfl, rfl, by simp [resolve_end], rfl, rfl⟩

/-- Claim C6: `get_range_proof` raises the illegal-range panic exactly
when the resolved bounds satisfy `to ≤ from`; such a call leaves the
persistent state and the observed length unchanged; and with
`from < to` and `to > len` it returns the `Absent` proof instead. -/
theorem C6_range_panic (s : ProofList V) (a b : Bound) :
    ((get_range_proof s a b).1 =
        RangeOutcome.illegal_range (resolve_start a) (resolve_end s b).1 ↔
      (resolve_end s b).1 ≤ resolve_start a) ∧
    ((resolve_end s b).1 ≤ resolve_start a →
      (get_range_proof s a b).2.leaves = s.leaves ∧
      (get_range_proof s a b).2.nodes = s.nodes ∧
      (get_range_proof s a b).2.stored_len = s.stored_len ∧
      lenVal (get_range_proof s a b).2 = lenVal s) ∧
    (resolve_start a < (resolve_end s b).1 → lenVal s < (resolve_end s b).1 →
      (get_range_proof s a b).1 =
        RangeOutcome.proof (ListProof.Absent (lenVal s) (merkle_root s))) := by
  obtain ⟨hle, hnd, hst, hlv⟩ := resolve_end_state s b
  by_cases hcond : (resolve_end s b).1 ≤ resolve_start a
  · have hg : get_range_proof s a b =
        (RangeOutcome.illegal_range (resolve_start a) (resolve_end s b).1,
          (resolve_end s b).2) := by
      rw [get_range_proof_eq, if_pos hcond]
    refine ⟨?_, ?_, ?_⟩
    · rw [hg]
      simp [hcond]
    · intro _
      rw [hg]
      exact ⟨hle, hnd, hst, hlv⟩
    · intro h1 _
      omega
  · have hq1 : (lenRead (resolve_end s b).2).1 = lenVal s := by
      rw [lenRead_fst, hlv]
    refine ⟨?_, fun h => absurd h hcond, ?_⟩
    · rw [get_range_proof_eq, if_neg hcond]
      by_cases habs : (lenRead (resolve_end s b).2).1 < (resolve_end s b).1
      · rw [if_pos habs]
        simp [hcond]
      · rw [if_neg habs]
        rcases hcp : construct_proof (lenRead (resolve_end s b).2).2
            (root_key (lenRead (resolve_end s b).2).2)
            (resolve_start a) (resolve_end s b).1 with _ | pr
        · simp [hcond]
        · simp [hcond]
    · intro h1 h2
      rw [get_range_proof_eq, if_neg hcond]
      rw [if_pos (by rw [hq1]; exact h2)]
      have hmr : merkle_root (lenRead (resolve_end s b).2).2 = merkle_root s := by
        apply merkle_root_congr
        · rw [nodes_lenRead, hnd]
        · rw [lenVal_lenRead, hlv]
      simp [hmr, hlv]

/-- Witness for C6 on the five-element list: `3..3` panics without
touching the state, and `1..10` yields the `Absent` proof. -/
theorem C6_witness :
    (get_range_proof fiveList (Bound.included 3) (Bound.excluded 3)).1 =
      RangeOutcome.illegal_range 3 3 ∧
    (get_range_proof fiveList (Bound.included 3) (Bound.excluded 3)).2.stored_len =
      fiveList.stored_len ∧
    (get_range_proof fiveList (Bound.included 1) (Bound.excluded 10)).1 =
      RangeOutcome.proof (ListProof.Absent (lenVal fiveList) (merkle_root fiveList)) :=
  ⟨(C6_range_panic fiveList (Bound.included 3) (Bound.excluded 3)).1.mpr (by decide),
   ((C6_range_panic fiveList (Bound.included 3) (Bound.excluded 3)).2.1
     (by decide)).2.2.1,
   (C6_range_panic fiveList (Bound.included 1) (Bound.excluded 10)).2.2
     (by decide) (by decide)⟩

/-- Claim C7, amended: `push` persists `len = n + 1` and updates the
cache before its node writes (not as the last step, as originally
claimed), then writes the height-1 hash and the leaf, and the upward
walk runs against the post-increment height, so after the call the new
leaf, its hash and the node at the new root key are all present. -/
theorem C7_push_write_order (s : ProofList V) (v : V) (t : ProofList V)
    (hp : push s v = some t) :
    t.stored_len = some (lenVal s + 1) ∧
    t.cache = some (lenVal s + 1) ∧
    get t (lenVal s) = some v ∧
    t.nodes ⟨1, lenVal s⟩ = some (hash_leaf v) ∧
    (t.nodes (root_key t)).isSome := by
  obtain ⟨_, h2, h3, h4, h5, h6⟩ := push_facts s t v hp
  refine ⟨h2, h3, ?_, h5, h6⟩
  rw [show get t (lenVal s) = t.leaves (lenVal s) from rfl, h4 (lenVal s)]
  simp

/-- Witness for C7 (amended) at the push of `3` onto `[1, 2]`. -/
theorem C7_witness :
    pushedThree.stored_len = some (lenVal twoList + 1) ∧
    pushedThree.cache = some (lenVal twoList + 1) ∧
    get pushedThree (lenVal twoList) = some 3 ∧
    pushedThree.nodes ⟨1, lenVal twoList⟩ = some (hash_leaf 3) ∧
    (pushedThree.nodes (root_key pushedThree)).isSome :=
  C7_push_write_order twoList 3 pushedThree rfl

/-- Counterexample to C7 as stated: executing the claimed write order
(length persisted last) on `[1, 2]` while pushing `3` yields a state
whose `list_hash` differs from the one the real `push` produces, because
the walk then runs against the pre-increment height and never
materialises the new root. -/
theorem C7_counterexample :
    (push twoList (3 : Nat)).map list_hash ≠
      (push_claim_order twoList 3).map list_hash := by
  decide

/-- Claim C8: `set i v` panics when `i ≥ len`; a successful `set` leaves
the length (observed and stored) unchanged and every leaf at a position
other than `i` unchanged. -/
theorem C8_set_frame (s : ProofList V) (i : Nat) (v : V) :
    (lenVal s ≤ i → set s i v = none) ∧
    (∀ t, set s i v = some t →
      lenVal t = lenVal s ∧ t.stored_len = s.stored_len ∧
      ∀ j, j ≠ i → get t j = get s j) := by
  constructor
  · exact set_none s i v
  · intro t hp
    obtain ⟨_, hlen, hst, hfr, _, _, _⟩ := set_facts s t i v hp
    exact ⟨hlen, hst, fun j hj => hfr j hj⟩

/-- Witness for C8 on `[10, 20, 30]`: `set 5` panics, and `set 1 99`
keeps the length and leaf 0. -/
theorem C8_witness :
    set sampleList 5 (99 : Nat) = none ∧
    lenVal sampleSet = lenVal sampleList ∧
    get sampleSet 0 = get sampleList 0 :=
  ⟨(C8_set_frame sampleList 5 99).1 (by decide),
   ((C8_set_frame sampleList 1 99).2 sampleSet rfl).1,
   ((C8_set_frame sampleList 1 99).2 sampleSet rfl).2.2 0 (by decide)⟩

/-- Claim C9: `set i v` is idempotent with respect to the commitment:
after a successful `set i v`, repeating it succeeds, returns the same
state, and therefore leaves `list_hash` unchanged. -/
theorem C9_set_idempotent (s t : ProofList V) (i : Nat) (v : V)
    (hp : set s i v = some t) :
    set t i v = some t ∧ (set t i v).map list_hash = some (list_hash t) := by
  have h2 := set_idem s t i v hp
  exact ⟨h2, by rw [h2]; rfl⟩

/-- Witness for C9: repeating `set 1 99` on `[10, 20, 30]`. -/
theorem C9_witness :
    set sampleSet 1 (99 : Nat) = some sampleSet ∧
    (set sampleSet 1 99).map list_hash = some (list_hash sampleSet) :=
  C9_set_idempotent sampleList sampleSet 1 99 rfl

/-- Claim C10: on an empty list, `get_range_proof` over the full
unbounded range resolves `from = 0` and `to = 0` and therefore raises
the illegal-range panic instead of returning a proof of absence. -/
theorem C10_empty_full_range (s : ProofList V) (h0 : lenVal s = 0) :
    (get_range_proof s Bound.unbounded Bound.unbounded).1 =
      RangeOutcome.illegal_range 0 0 := by
  have h1 : (resolve_end s Bound.unbounded).1 = lenVal s := by
    simp [resolve_end]
  rw [get_range_proof_eq, if_pos (by rw [h1, h0]; exact le_refl 0)]
  simp [resolve_start, h1, h0]

/-- Witness for C10 at the fresh empty index. -/
theorem C10_witness :
    (get_range_proof (empty0 (V := Nat)) Bound.unbounded Bound.unbounded).1 =
      RangeOutcome.illegal_range 0 0 :=
  C10_empty_full_range empty0 rfl

end ProofListIndex
